import Mathlib

/-!
Verification of the revised simplex implementation in
src/Simplexnailson.py.

Matrices are lists of row lists over ℚ (the exact-arithmetic model of the
source's float arithmetic), vectors are lists of ℚ.  numpy indexing is
modelled with List.getD, and the exception numpy raises on inverting an
exactly singular matrix is modelled by an explicit result constructor.
The solver's unbounded while loop is modelled with an explicit fuel
argument; running out of fuel is a model artifact reported by a separate
constructor.
-/

/-- Dot product, modelling np.dot on two vectors. -/
def dot (a b : List ℚ) : ℚ := (List.zipWith (fun x y => x * y) a b).sum

/-- Matrix-vector product, modelling np.dot(M, v). -/
def matVec (M : List (List ℚ)) (v : List ℚ) : List ℚ :=
  M.map (fun row => dot row v)

/-- Column j of a matrix, modelling A[:, j]. -/
def colOf (M : List (List ℚ)) (j : ℕ) : List ℚ :=
  M.map (fun row => row.getD j 0)

/-- Column selection, modelling A[:, idxs]. -/
def colsOf (M : List (List ℚ)) (idxs : List ℕ) : List (List ℚ) :=
  M.map (fun row => idxs.map (fun j => row.getD j 0))

/-- Entry selection from a vector, modelling np.array(v)[idxs]. -/
def getAt (v : List ℚ) (idxs : List ℕ) : List ℚ :=
  idxs.map (fun j => v.getD j 0)

/-- Vector-matrix product, modelling np.dot(v, M). -/
def vecMat (v : List ℚ) (M : List (List ℚ)) : List ℚ :=
  (List.range (M.headD []).length).map (fun j => dot v (colOf M j))

/-- Laplace expansion of the determinant along the first row, with an
explicit structural fuel (the row count bounds the recursion depth). -/
def detAux : ℕ → List (List ℚ) → ℚ
  | _, [] => 1
  | 0, _ :: _ => 1
  | k + 1, r :: rest =>
      (List.range r.length).foldr
        (fun j acc =>
          (-1 : ℚ) ^ j * r.getD j 0 *
            detAux k (rest.map (fun row => row.eraseIdx j)) + acc)
        0

/-- Determinant of a square list matrix. -/
def det (M : List (List ℚ)) : ℚ := detAux M.length M

/-- Minor of a matrix: delete row i and column j. -/
def minorMat (M : List (List ℚ)) (i j : ℕ) : List (List ℚ) :=
  (M.eraseIdx i).map (fun row => row.eraseIdx j)

/-- np.linalg.inv via the adjugate formula; none models the LinAlgError
numpy raises on an exactly singular matrix. -/
def matInv (M : List (List ℚ)) : Option (List (List ℚ)) :=
  if det M = 0 then none
  else
    some ((List.range M.length).map (fun i =>
      (List.range M.length).map (fun j =>
        (-1 : ℚ) ^ (i + j) * det (minorMat M j i) / det M)))

/-- The dictionary the solver returns; keys absent from the dict at a
given return site are modelled as none. -/
structure Result where
  status : String
  iteration : ℕ
  solution : Option (List ℚ)
  objective_value : Option ℚ
  message : Option String
deriving DecidableEq

/-- The mutable loop state of solver: basic index list, nonbasic index
list and the iteration counter (the matrices B and c_B the source also
keeps are recomputed from these, exactly as the source recomputes them
after every pivot). -/
structure SimplexState where
  B_indices : List ℕ
  N_indices : List ℕ
  iteration : ℕ
deriving DecidableEq

/-- Result of one pass through the while-loop body. -/
inductive StepResult where
  | done (r : Result)
  | raised (iteration : ℕ)
  | next (s : SimplexState)
deriving DecidableEq

/-- Result of a whole solver run. -/
inductive SolveRes where
  | ok (r : Result)
  | exn (iteration : ℕ)
  | fuelOut
deriving DecidableEq

/-- Does the run end in a propagated exception? -/
def SolveRes.isExn : SolveRes → Bool
  | .exn _ => true
  | _ => false

/-- The dict built at the Infeasible return site (line 41). -/
def mkInfeasible (iter : ℕ) : Result :=
  { status := "Infeasible", iteration := iter, solution := none,
    objective_value := none, message := none }

/-- The dict built at the Optimal return site (lines 54-59). -/
def mkOptimal (x : List ℚ) (obj : ℚ) (iter : ℕ) : Result :=
  { status := "Optimal", iteration := iter, solution := some x,
    objective_value := some obj, message := none }

/-- The dict built at the Unbounded return site (line 70). -/
def mkUnbounded (iter : ℕ) : Result :=
  { status := "Unbounded", iteration := iter, solution := none,
    objective_value := none, message := none }

/-- np.argmin on a list: index of the first occurrence of the minimum
(0 on the empty list, where numpy would raise). -/
def argmin {α : Type} [LinearOrder α] : List α → ℕ
  | [] => 0
  | x :: xs => if xs.all (fun y => decide (x ≤ y)) then 0 else argmin xs + 1

/-- B = A[:, B_indices] (lines 27 and 83). -/
def basisMatrix (A : List (List ℚ)) (s : SimplexState) : List (List ℚ) :=
  colsOf A s.B_indices

/-- x_B = np.dot(B_inv, b_eq) (line 37). -/
def basicSolution (B_inv : List (List ℚ)) (b_eq : List ℚ) : List ℚ :=
  matVec B_inv b_eq

/-- reduced_costs = c_N - np.dot(y, N) with y = np.dot(c_B, B_inv)
(lines 44-47). -/
def reducedCosts (c : List ℚ) (A : List (List ℚ)) (B_inv : List (List ℚ))
    (s : SimplexState) : List ℚ :=
  List.zipWith (fun x y => x - y) (getAt c s.N_indices)
    (vecMat (vecMat (getAt c s.B_indices) B_inv) (colsOf A s.N_indices))

/-- entering_index = np.argmin(reduced_costs) (line 62). -/
def entering_index_of (c : List ℚ) (A : List (List ℚ)) (B_inv : List (List ℚ))
    (s : SimplexState) : ℕ :=
  argmin (reducedCosts c A B_inv s)

/-- entering_var = N_indices[entering_index] (line 63). -/
def entering_var_of (c : List ℚ) (A : List (List ℚ)) (B_inv : List (List ℚ))
    (s : SimplexState) : ℕ :=
  s.N_indices.getD (entering_index_of c A B_inv s) 0

/-- direction = np.dot(B_inv, A[:, entering_var]) (line 66). -/
def directionOf (A : List (List ℚ)) (B_inv : List (List ℚ)) (j : ℕ) : List ℚ :=
  matVec B_inv (colOf A j)

/-- ratios, with np.inf modelled as the top element of WithTop ℚ
(lines 73-76). -/
def ratiosOf (x_B direction : List ℚ) : List (WithTop ℚ) :=
  (List.range direction.length).map (fun i =>
    if 0 < direction.getD i 0 then
      ((x_B.getD i 0 / direction.getD i 0 : ℚ) : WithTop ℚ)
    else ⊤)

/-- leaving_index = np.argmin(ratios) (line 77). -/
def leaving_index_of (c : List ℚ) (A : List (List ℚ)) (b_eq : List ℚ)
    (B_inv : List (List ℚ)) (s : SimplexState) : ℕ :=
  argmin (ratiosOf (basicSolution B_inv b_eq)
    (directionOf A B_inv (entering_var_of c A B_inv s)))

/-- leaving_var = B_indices[leaving_index] (line 78). -/
def leaving_var_of (c : List ℚ) (A : List (List ℚ)) (b_eq : List ℚ)
    (B_inv : List (List ℚ)) (s : SimplexState) : ℕ :=
  s.B_indices.getD (leaving_index_of c A b_eq B_inv s) 0

/-- x = np.zeros(num_vars); x[B_indices] = x_B (lines 51-52): numpy
fancy-index assignment sets position B_indices[k] to x_B[k]. -/
def assembleSolution (num_vars : ℕ) (B_indices : List ℕ) (x_B : List ℚ) :
    List ℚ :=
  List.foldl (fun acc p => acc.set p.1 p.2)
    (List.replicate num_vars 0) (B_indices.zip x_B)

/-- The basis update of lines 81-84. -/
def pivot (c : List ℚ) (A : List (List ℚ)) (b_eq : List ℚ)
    (B_inv : List (List ℚ)) (s : SimplexState) : SimplexState :=
  { B_indices := s.B_indices.set (leaving_index_of c A b_eq B_inv s)
      (entering_var_of c A B_inv s),
    N_indices := s.N_indices.set (entering_index_of c A B_inv s)
      (leaving_var_of c A b_eq B_inv s),
    iteration := s.iteration + 1 }

/-- One pass through the while-loop body of solver (lines 32-84), with
the iteration counter already incremented at the top of the body. -/
def step (c : List ℚ) (A : List (List ℚ)) (b_eq : List ℚ)
    (s : SimplexState) : StepResult :=
  match matInv (basisMatrix A s) with
  | none => StepResult.raised (s.iteration + 1)
  | some B_inv =>
    if (basicSolution B_inv b_eq).any (fun x => decide (x < 0)) then
      StepResult.done (mkInfeasible (s.iteration + 1))
    else if (reducedCosts c A B_inv s).all (fun r => decide (0 ≤ r)) then
      StepResult.done
        (mkOptimal (assembleSolution c.length s.B_indices (basicSolution B_inv b_eq))
          (dot c (assembleSolution c.length s.B_indices (basicSolution B_inv b_eq)))
          (s.iteration + 1))
    else if (directionOf A B_inv (entering_var_of c A B_inv s)).all
        (fun t => decide (t ≤ 0)) then
      StepResult.done (mkUnbounded (s.iteration + 1))
    else
      StepResult.next (pivot c A b_eq B_inv s)

/-- The while True loop, with explicit fuel. -/
def solverLoop (c : List ℚ) (A : List (List ℚ)) (b_eq : List ℚ) :
    ℕ → SimplexState → SolveRes
  | 0, _ => SolveRes.fuelOut
  | k + 1, s =>
    match step c A b_eq s with
    | StepResult.done r => SolveRes.ok r
    | StepResult.raised i => SolveRes.exn i
    | StepResult.next s' => solverLoop c A b_eq k s'

/-- Lines 19-24: the initial all-slack basis, B_indices =
range(num_vars - num_constraints, num_vars) and N_indices =
range(num_vars - num_constraints), for num_vars ≥ num_constraints. -/
def initState (c b_eq : List ℚ) : SimplexState :=
  { B_indices := List.range' (c.length - b_eq.length)
      (c.length - (c.length - b_eq.length)),
    N_indices := List.range (c.length - b_eq.length),
    iteration := 0 }

/-- solver (lines 4-84). -/
def solver (fuelBudget : ℕ) (c : List ℚ) (A_eq : List (List ℚ))
    (b_eq : List ℚ) : SolveRes :=
  solverLoop c A_eq b_eq fuelBudget (initState c b_eq)

/-- np.eye(m). -/
def eye (m : ℕ) : List (List ℚ) :=
  (List.range m).map (fun i =>
    (List.range m).map (fun j => if i = j then (1 : ℚ) else 0))

/-- np.hstack on two matrices with the same number of rows. -/
def hstack (A B : List (List ℚ)) : List (List ℚ) :=
  (List.zip A B).map (fun p => p.1 ++ p.2)

/-- Variable bounds: lower bound paired with an upper bound where none
models np.inf. -/
abbrev Bounds := List (ℚ × Option ℚ)

/-- prepara_input (lines 87-112): appends identity slack columns, zero
slack costs and (0, np.inf) slack bounds. -/
def prepara_input (A_eq : List (List ℚ)) (c : List ℚ) (bounds : Bounds) :
    List (List ℚ) × List ℚ × Bounds :=
  (hstack A_eq (eye A_eq.length),
   c ++ List.replicate A_eq.length 0,
   bounds ++ List.replicate A_eq.length ((0 : ℚ), (none : Option ℚ)))

/-- A caller frame holding the three argument objects of prepara_input:
a cell store for matrices, one for cost vectors, one for bounds lists. -/
structure Store where
  mats : List (List (List ℚ))
  vecs : List (List ℚ)
  bnds : List Bounds
deriving DecidableEq

/-- prepara_input at the heap level: the three Python statements
(np.hstack, list concatenation twice) each allocate a fresh object and
rebind a local name, so the function appends three new cells and
returns their references; the caller's cells are untouched.  This
mirrors CPython semantics for the exact operations the source uses
(none of which mutates in place). -/
def prepara_input_heap (st : Store) (aRef cRef bRef : ℕ) :
    Store × (ℕ × ℕ × ℕ) :=
  ({ mats := st.mats ++
       [(prepara_input (st.mats.getD aRef []) (st.vecs.getD cRef [])
          (st.bnds.getD bRef [])).1],
     vecs := st.vecs ++
       [(prepara_input (st.mats.getD aRef []) (st.vecs.getD cRef [])
          (st.bnds.getD bRef [])).2.1],
     bnds := st.bnds ++
       [(prepara_input (st.mats.getD aRef []) (st.vecs.getD cRef [])
          (st.bnds.getD bRef [])).2.2] },
   (st.mats.length, st.vecs.length, st.bnds.length))

/-- Modelled from the spec: the singularity predicate of section 4.2
(compare the absolute determinant against a configurable tolerance),
part of the repository's second solver variant, which is not under
src/ (spec section 9: "the source ships two variants differing mainly
in whether a singularity check exists"). -/
def isSingular (tol : ℚ) (M : List (List ℚ)) : Bool :=
  decide (|det M| ≤ tol)

/-- Modelled from the spec: the SingularBasis outcome of sections 4.3
step 1 and 7, reported with iteration index and a message. -/
def mkSingular (iter : ℕ) : Result :=
  { status := "SingularBasis", iteration := iter, solution := none,
    objective_value := none, message := some "singular basis matrix" }

/-- Modelled from the spec: the loop body of the second solver variant,
which runs the singularity predicate before inverting (section 4.3
step 1) and otherwise behaves as the src variant. -/
def stepS (tol : ℚ) (c : List ℚ) (A : List (List ℚ)) (b_eq : List ℚ)
    (s : SimplexState) : StepResult :=
  if isSingular tol (basisMatrix A s) then
    StepResult.done (mkSingular (s.iteration + 1))
  else
    step c A b_eq s

/-- Modelled from the spec: the while loop of the second solver
variant, with explicit fuel. -/
def solverLoopS (tol : ℚ) (c : List ℚ) (A : List (List ℚ)) (b_eq : List ℚ) :
    ℕ → SimplexState → SolveRes
  | 0, _ => SolveRes.fuelOut
  | k + 1, s =>
    match stepS tol c A b_eq s with
    | StepResult.done r => SolveRes.ok r
    | StepResult.raised i => SolveRes.exn i
    | StepResult.next s' => solverLoopS tol c A b_eq k s'

/-- Modelled from the spec: the second solver variant. -/
def solverS (tol : ℚ) (fuelBudget : ℕ) (c : List ℚ) (A_eq : List (List ℚ))
    (b_eq : List ℚ) : SolveRes :=
  solverLoopS tol c A_eq b_eq fuelBudget (initState c b_eq)

/-! ### Helper lemmas -/

theorem getD_range_map {α : Type} (f : ℕ → α) {n i : ℕ} (h : i < n) (d : α) :
    ((List.range n).map f).getD i d = f i := by
  simp [List.getD_eq_getElem?_getD, List.getElem?_map, List.getElem?_range h]

theorem getD_set_ne {α : Type} {l : List α} {i j : ℕ} (hij : i ≠ j) (v d : α) :
    (l.set i v).getD j d = l.getD j d := by
  simp [List.getD_eq_getElem?_getD, List.getElem?_set, hij]

theorem getD_set_self {α : Type} {l : List α} {i : ℕ} (h : i < l.length) (v d : α) :
    (l.set i v).getD i d = v := by
  simp [List.getD_eq_getElem?_getD, List.getElem?_set, h]

theorem getD_replicate_zero (n j : ℕ) : (List.replicate n (0 : ℚ)).getD j 0 = 0 := by
  simp only [List.getD_eq_getElem?_getD, List.getElem?_replicate]
  split <;> simp

theorem exists_getD_of_all_false {α : Type} {p : α → Bool} (d : α) :
    ∀ {l : List α}, l.all p = false → ∃ i, i < l.length ∧ p (l.getD i d) = false := by
  intro l
  induction l with
  | nil => intro h; simp at h
  | cons x xs ih =>
    intro h
    rw [List.all_cons] at h
    rcases Bool.and_eq_false_iff.mp h with hx | hxs
    · exact ⟨0, by simp, by simpa using hx⟩
    · obtain ⟨i, hi, hp⟩ := ih hxs
      exact ⟨i + 1, Nat.succ_lt_succ hi, hp⟩

theorem argmin_lt_length {α : Type} [LinearOrder α] {l : List α} (h : l ≠ []) :
    argmin l < l.length := by
  induction l with
  | nil => exact absurd rfl h
  | cons x xs ih =>
    cases hall : xs.all (fun y => decide (x ≤ y)) with
    | true => simp [argmin, hall]
    | false =>
      have hxs : xs ≠ [] := by
        intro he; subst he; simp at hall
      simp only [argmin, hall, Bool.false_eq_true, if_false, List.length_cons]
      exact Nat.succ_lt_succ (ih hxs)

theorem argmin_le_getD {α : Type} [LinearOrder α] (l : List α) (d : α) :
    ∀ i, i < l.length → l.getD (argmin l) d ≤ l.getD i d := by
  induction l with
  | nil => intro i hi; simp at hi
  | cons x xs ih =>
    intro i hi
    cases hall : xs.all (fun y => decide (x ≤ y)) with
    | true =>
      simp only [argmin, hall, if_pos]
      have hx : ∀ y ∈ xs, x ≤ y := by
        intro y hy
        have := List.all_eq_true.mp hall y hy
        exact of_decide_eq_true this
      cases i with
      | zero => simp
      | succ j =>
        simp only [List.getD_cons_zero, List.getD_cons_succ]
        have hj : j < xs.length := by simpa using hi
        exact hx _ (by rw [List.getD_eq_getElem _ _ hj]; exact List.getElem_mem hj)
    | false =>
      have hex : ∃ y ∈ xs, y < x := by
        obtain ⟨k, hk, hp⟩ := exists_getD_of_all_false d hall
        refine ⟨xs.getD k d, ?_, ?_⟩
        · rw [List.getD_eq_getElem _ _ hk]; exact List.getElem_mem hk
        · have := of_decide_eq_false hp
          exact lt_of_not_le this
      simp only [argmin, hall, Bool.false_eq_true, if_false, List.getD_cons_succ]
      cases i with
      | zero =>
        simp only [List.getD_cons_zero]
        obtain ⟨y, hy, hyx⟩ := hex
        obtain ⟨k, hk, hky⟩ := List.getElem_of_mem hy
        have h1 : xs.getD (argmin xs) d ≤ xs.getD k d := ih k hk
        rw [List.getD_eq_getElem _ _ hk, hky] at h1
        exact le_of_lt (lt_of_le_of_lt h1 hyx)
      | succ j =>
        simp only [List.getD_cons_succ]
        exact ih j (by simpa using hi)

theorem argmin_first_getD {α : Type} [LinearOrder α] (l : List α) (d : α) :
    ∀ i, i < argmin l → l.getD (argmin l) d < l.getD i d := by
  induction l with
  | nil => intro i hi; simp [argmin] at hi
  | cons x xs ih =>
    intro i hi
    cases hall : xs.all (fun y => decide (x ≤ y)) with
    | true => simp [argmin, hall] at hi
    | false =>
      have hex : ∃ y ∈ xs, y < x := by
        obtain ⟨k, hk, hp⟩ := exists_getD_of_all_false d hall
        refine ⟨xs.getD k d, ?_, ?_⟩
        · rw [List.getD_eq_getElem _ _ hk]; exact List.getElem_mem hk
        · exact lt_of_not_le (of_decide_eq_false hp)
      simp only [argmin, hall, Bool.false_eq_true, if_false] at hi ⊢
      simp only [List.getD_cons_succ]
      cases i with
      | zero =>
        simp only [List.getD_cons_zero]
        obtain ⟨y, hy, hyx⟩ := hex
        obtain ⟨k, hk, hky⟩ := List.getElem_of_mem hy
        have h1 : xs.getD (argmin xs) d ≤ xs.getD k d := argmin_le_getD xs d k hk
        rw [List.getD_eq_getElem _ _ hk, hky] at h1
        exact lt_of_le_of_lt h1 hyx
      | succ j =>
        simp only [List.getD_cons_succ]
        exact ih j (Nat.lt_of_succ_lt_succ hi)

theorem matInv_eq_none_iff {M : List (List ℚ)} : matInv M = none ↔ det M = 0 := by
  constructor
  · intro h
    by_contra hd
    simp [matInv, hd] at h
  · intro h
    simp [matInv, h]

theorem matInv_length {M M' : List (List ℚ)} (h : matInv M = some M') :
    M'.length = M.length := by
  unfold matInv at h
  split at h
  · cases h
  · cases h
    simp

theorem step_raised_eq {c b_eq : List ℚ} {A' : List (List ℚ)} {s : SimplexState}
    (h : matInv (basisMatrix A' s) = none) :
    step c A' b_eq s = StepResult.raised (s.iteration + 1) := by
  unfold step
  rw [h]

theorem step_infeasible_eq {c b_eq : List ℚ} {A B_inv : List (List ℚ)}
    {s : SimplexState} (hinv : matInv (basisMatrix A s) = some B_inv)
    (hx : (basicSolution B_inv b_eq).any (fun x => decide (x < 0)) = true) :
    step c A b_eq s = StepResult.done (mkInfeasible (s.iteration + 1)) := by
  unfold step
  rw [hinv]
  simp [hx]

theorem step_optimal_eq {c b_eq : List ℚ} {A B_inv : List (List ℚ)}
    {s : SimplexState} (hinv : matInv (basisMatrix A s) = some B_inv)
    (hx : (basicSolution B_inv b_eq).any (fun x => decide (x < 0)) = false)
    (hrc : (reducedCosts c A B_inv s).all (fun r => decide (0 ≤ r)) = true) :
    step c A b_eq s = StepResult.done
      (mkOptimal (assembleSolution c.length s.B_indices (basicSolution B_inv b_eq))
        (dot c (assembleSolution c.length s.B_indices (basicSolution B_inv b_eq)))
        (s.iteration + 1)) := by
  unfold step
  rw [hinv]
  simp [hx, hrc]

theorem step_unbounded_eq {c b_eq : List ℚ} {A B_inv : List (List ℚ)}
    {s : SimplexState} (hinv : matInv (basisMatrix A s) = some B_inv)
    (hx : (basicSolution B_inv b_eq).any (fun x => decide (x < 0)) = false)
    (hrc : (reducedCosts c A B_inv s).all (fun r => decide (0 ≤ r)) = false)
    (hd : (directionOf A B_inv (entering_var_of c A B_inv s)).all
      (fun t => decide (t ≤ 0)) = true) :
    step c A b_eq s = StepResult.done (mkUnbounded (s.iteration + 1)) := by
  unfold step
  rw [hinv]
  simp [hx, hrc, hd]

theorem step_pivot_eq {c b_eq : List ℚ} {A B_inv : List (List ℚ)}
    {s : SimplexState} (hinv : matInv (basisMatrix A s) = some B_inv)
    (hx : (basicSolution B_inv b_eq).any (fun x => decide (x < 0)) = false)
    (hrc : (reducedCosts c A B_inv s).all (fun r => decide (0 ≤ r)) = false)
    (hd : (directionOf A B_inv (entering_var_of c A B_inv s)).all
      (fun t => decide (t ≤ 0)) = false) :
    step c A b_eq s = StepResult.next (pivot c A b_eq B_inv s) := by
  unfold step
  rw [hinv]
  simp [hx, hrc, hd]

theorem step_next_elim {c b_eq : List ℚ} {A : List (List ℚ)}
    {s s' : SimplexState} (h : step c A b_eq s = StepResult.next s') :
    ∃ B_inv, matInv (basisMatrix A s) = some B_inv ∧
      (basicSolution B_inv b_eq).any (fun x => decide (x < 0)) = false ∧
      (reducedCosts c A B_inv s).all (fun r => decide (0 ≤ r)) = false ∧
      (directionOf A B_inv (entering_var_of c A B_inv s)).all
        (fun t => decide (t ≤ 0)) = false ∧
      s' = pivot c A b_eq B_inv s := by
  cases hinv : matInv (basisMatrix A s) with
  | none => rw [step_raised_eq hinv] at h; cases h
  | some B_inv =>
    cases hx : (basicSolution B_inv b_eq).any (fun x => decide (x < 0)) with
    | true => rw [step_infeasible_eq hinv hx] at h; cases h
    | false =>
      cases hrc : (reducedCosts c A B_inv s).all (fun r => decide (0 ≤ r)) with
      | true => rw [step_optimal_eq hinv hx hrc] at h; cases h
      | false =>
        cases hd : (directionOf A B_inv (entering_var_of c A B_inv s)).all
            (fun t => decide (t ≤ 0)) with
        | true => rw [step_unbounded_eq hinv hx hrc hd] at h; cases h
        | false =>
          rw [step_pivot_eq hinv hx hrc hd] at h
          injection h with h'
          exact ⟨B_inv, rfl, hx, hrc, hd, h'.symm⟩

theorem step_done_elim {c b_eq : List ℚ} {A : List (List ℚ)}
    {s : SimplexState} {r : Result} (h : step c A b_eq s = StepResult.done r) :
    r = mkInfeasible (s.iteration + 1) ∨
    (∃ x, r = mkOptimal x (dot c x) (s.iteration + 1)) ∨
    r = mkUnbounded (s.iteration + 1) := by
  cases hinv : matInv (basisMatrix A s) with
  | none => rw [step_raised_eq hinv] at h; cases h
  | some B_inv =>
    cases hx : (basicSolution B_inv b_eq).any (fun x => decide (x < 0)) with
    | true =>
      rw [step_infeasible_eq hinv hx] at h
      injection h with h'
      exact Or.inl h'.symm
    | false =>
      cases hrc : (reducedCosts c A B_inv s).all (fun r => decide (0 ≤ r)) with
      | true =>
        rw [step_optimal_eq hinv hx hrc] at h
        injection h with h'
        exact Or.inr (Or.inl ⟨_, h'.symm⟩)
      | false =>
        cases hd : (directionOf A B_inv (entering_var_of c A B_inv s)).all
            (fun t => decide (t ≤ 0)) with
        | true =>
          rw [step_unbounded_eq hinv hx hrc hd] at h
          injection h with h'
          exact Or.inr (Or.inr h'.symm)
        | false =>
          rw [step_pivot_eq hinv hx hrc hd] at h
          cases h

theorem perm_set_cons_eraseIdx {α : Type} :
    ∀ (l : List α) (i : ℕ), i < l.length → ∀ a : α,
      (l.set i a).Perm (a :: l.eraseIdx i)
  | [], i, h, _ => absurd h (by simp)
  | x :: xs, 0, _, a => by simp [List.Perm.refl]
  | x :: xs, i + 1, h, a => by
    have ih := perm_set_cons_eraseIdx xs i (by simpa using h) a
    simp only [List.set_cons_succ, List.eraseIdx_cons_succ]
    exact (ih.cons x).trans (List.Perm.swap a x _)

theorem perm_cons_getD_eraseIdx {α : Type} :
    ∀ (l : List α) (i : ℕ), i < l.length → ∀ d : α,
      l.Perm (l.getD i d :: l.eraseIdx i)
  | [], i, h, _ => absurd h (by simp)
  | x :: xs, 0, _, d => by simp [List.Perm.refl]
  | x :: xs, i + 1, h, d => by
    have ih := perm_cons_getD_eraseIdx xs i (by simpa using h) d
    simp only [List.getD_cons_succ, List.eraseIdx_cons_succ]
    exact (ih.cons x).trans (List.Perm.swap _ x _)

theorem swap_pivot_perm (B N : List ℕ) (r t : ℕ)
    (hr : r < B.length) (ht : t < N.length) :
    ((B.set r (N.getD t 0)) ++ (N.set t (B.getD r 0))).Perm (B ++ N) := by
  have h1 := perm_set_cons_eraseIdx B r hr (N.getD t 0)
  have h2 := perm_set_cons_eraseIdx N t ht (B.getD r 0)
  have h3 := perm_cons_getD_eraseIdx B r hr 0
  have h4 := perm_cons_getD_eraseIdx N t ht 0
  refine (h1.append h2).trans (.trans ?_ (h3.append h4).symm)
  have hmid1 : ((N.getD t 0 :: B.eraseIdx r) ++ (B.getD r 0 :: N.eraseIdx t)).Perm
      (N.getD t 0 :: B.getD r 0 :: (B.eraseIdx r ++ N.eraseIdx t)) := by
    simp only [List.cons_append]
    exact List.Perm.cons (N.getD t 0) List.perm_middle
  have hmid2 : ((B.getD r 0 :: B.eraseIdx r) ++ (N.getD t 0 :: N.eraseIdx t)).Perm
      (B.getD r 0 :: N.getD t 0 :: (B.eraseIdx r ++ N.eraseIdx t)) := by
    simp only [List.cons_append]
    exact List.Perm.cons (B.getD r 0) List.perm_middle
  exact (hmid1.trans (List.Perm.swap _ _ _)).trans hmid2.symm

theorem foldl_set_length (ps : List (ℕ × ℚ)) :
    ∀ acc : List ℚ,
      (List.foldl (fun a p => a.set p.1 p.2) acc ps).length = acc.length := by
  induction ps with
  | nil => intro acc; rfl
  | cons p ps ih =>
    intro acc
    simp only [List.foldl_cons]
    rw [ih]
    exact List.length_set acc p.1 p.2

theorem foldl_set_getD_not_mem {j : ℕ} (d : ℚ) :
    ∀ (idxs : List ℕ) (vals : List ℚ) (acc : List ℚ), j ∉ idxs →
      (List.foldl (fun a p => a.set p.1 p.2) acc (idxs.zip vals)).getD j d =
        acc.getD j d
  | [], _, acc, _ => by simp
  | _ :: _, [], acc, _ => by simp
  | i :: is, v :: vs, acc, hj => by
    simp only [List.zip_cons_cons, List.foldl_cons]
    rw [foldl_set_getD_not_mem d is vs _ (fun hm => hj (List.mem_cons_of_mem i hm))]
    have hij : i ≠ j := fun he => hj (he ▸ List.mem_cons_self i is)
    exact getD_set_ne hij v d

theorem foldl_set_getD_at :
    ∀ (idxs : List ℕ) (vals : List ℚ) (acc : List ℚ) (k : ℕ),
      idxs.Nodup → k < idxs.length → k < vals.length →
      (∀ j ∈ idxs, j < acc.length) →
      (List.foldl (fun a p => a.set p.1 p.2) acc (idxs.zip vals)).getD
          (idxs.getD k 0) 0 = vals.getD k 0
  | [], _, _, k, _, hk, _, _ => absurd hk (by simp)
  | _ :: _, [], _, k, _, _, hkv, _ => absurd hkv (by simp)
  | i :: is, v :: vs, acc, 0, hnd, _, _, hin => by
    simp only [List.zip_cons_cons, List.foldl_cons, List.getD_cons_zero]
    rw [foldl_set_getD_not_mem 0 is vs _ (List.nodup_cons.mp hnd).1]
    exact getD_set_self (hin i (List.mem_cons_self i is)) v 0
  | i :: is, v :: vs, acc, k + 1, hnd, hk, hkv, hin => by
    simp only [List.zip_cons_cons, List.foldl_cons, List.getD_cons_succ]
    exact foldl_set_getD_at is vs (acc.set i v) k (List.nodup_cons.mp hnd).2
      (by simpa using hk) (by simpa using hkv)
      (fun j hj => by rw [List.length_set]; exact hin j (List.mem_cons_of_mem i hj))

theorem assembleSolution_length (n : ℕ) (idxs : List ℕ) (vals : List ℚ) :
    (assembleSolution n idxs vals).length = n := by
  unfold assembleSolution
  rw [foldl_set_length]
  exact List.length_replicate n 0

theorem assembleSolution_getD_not_mem (n : ℕ) (idxs : List ℕ) (vals : List ℚ)
    {j : ℕ} (hj : j ∉ idxs) : (assembleSolution n idxs vals).getD j 0 = 0 := by
  unfold assembleSolution
  rw [foldl_set_getD_not_mem 0 idxs vals _ hj]
  exact getD_replicate_zero n j

theorem assembleSolution_getD_at (n : ℕ) (idxs : List ℕ) (vals : List ℚ)
    (k : ℕ) (hnd : idxs.Nodup) (hk : k < idxs.length) (hkv : k < vals.length)
    (hin : ∀ j ∈ idxs, j < n) :
    (assembleSolution n idxs vals).getD (idxs.getD k 0) 0 = vals.getD k 0 := by
  unfold assembleSolution
  exact foldl_set_getD_at idxs vals _ k hnd hk hkv
    (fun j hj => by rw [List.length_replicate]; exact hin j hj)

theorem getD_append_left {α : Type} {l1 l2 : List α} {j : ℕ} (h : j < l1.length)
    (d : α) : (l1 ++ l2).getD j d = l1.getD j d := by
  simp [List.getD_eq_getElem?_getD, List.getElem?_append_left h]

theorem getD_append_right_add {α : Type} (l1 l2 : List α) (j : ℕ) (d : α) :
    (l1 ++ l2).getD (l1.length + j) d = l2.getD j d := by
  simp only [List.getD_eq_getElem?_getD]
  rw [List.getElem?_append_right (by omega)]
  congr 2
  omega

theorem getD_mem {α : Type} {l : List α} {i : ℕ} (h : i < l.length) (d : α) :
    l.getD i d ∈ l := by
  rw [List.getD_eq_getElem _ _ h]
  exact List.getElem_mem h

theorem hstack_getD (A : List (List ℚ)) :
    ∀ (B : List (List ℚ)) (i : ℕ), i < A.length → i < B.length →
      (hstack A B).getD i [] = (A.getD i []) ++ (B.getD i []) := by
  induction A with
  | nil => intro B i h _; simp at h
  | cons a As ih =>
    intro B i hA hB
    cases B with
    | nil => simp at hB
    | cons b Bs =>
      cases i with
      | zero => rfl
      | succ n =>
        simp only [hstack, List.zip_cons_cons, List.map_cons, List.getD_cons_succ]
        simpa [hstack] using ih Bs n (by simpa using hA) (by simpa using hB)

theorem eye_getD_row {m i : ℕ} (h : i < m) :
    (eye m).getD i [] = (List.range m).map (fun j => if i = j then (1 : ℚ) else 0) :=
  getD_range_map _ h []

theorem eye_getD {m i j : ℕ} (hi : i < m) (hj : j < m) :
    ((eye m).getD i []).getD j 0 = if i = j then (1 : ℚ) else 0 := by
  rw [eye_getD_row hi]
  exact getD_range_map _ hj 0

/-- C3: for an equality matrix with m rows of width n0, a cost vector and
a bounds list, prepara_input returns the augmented matrix with m rows of
width n0 + m whose left block is the original matrix and whose right
block is the m-by-m identity, the cost vector extended by m zeros, and
the bounds extended by m copies of the pair (0, np.inf); being a total
function of its arguments, it has no failure modes. -/
theorem prepara_input_augments (A_eq : List (List ℚ)) (c : List ℚ)
    (bounds : Bounds) (n0 : ℕ) (hrows : ∀ row ∈ A_eq, row.length = n0) :
    (prepara_input A_eq c bounds).1.length = A_eq.length ∧
    (∀ i, i < A_eq.length →
      ((prepara_input A_eq c bounds).1.getD i []).length = n0 + A_eq.length) ∧
    (∀ i, i < A_eq.length → ∀ j, j < n0 →
      ((prepara_input A_eq c bounds).1.getD i []).getD j 0 =
        (A_eq.getD i []).getD j 0) ∧
    (∀ i, i < A_eq.length → ∀ j, j < A_eq.length →
      ((prepara_input A_eq c bounds).1.getD i []).getD (n0 + j) 0 =
        if i = j then (1 : ℚ) else 0) ∧
    (prepara_input A_eq c bounds).2.1 = c ++ List.replicate A_eq.length 0 ∧
    (prepara_input A_eq c bounds).2.2 =
      bounds ++ List.replicate A_eq.length ((0 : ℚ), (none : Option ℚ)) := by
  have hey : (eye A_eq.length).length = A_eq.length := by simp [eye]
  have hrow : ∀ i, i < A_eq.length →
      (prepara_input A_eq c bounds).1.getD i [] =
        (A_eq.getD i []) ++ ((eye A_eq.length).getD i []) := by
    intro i hi
    exact hstack_getD A_eq (eye A_eq.length) i hi (by rw [hey]; exact hi)
  have hAlen : ∀ i, i < A_eq.length → (A_eq.getD i []).length = n0 :=
    fun i hi => hrows _ (getD_mem hi [])
  refine ⟨?_, ?_, ?_, ?_, rfl, rfl⟩
  · simp [prepara_input, hstack, hey]
  · intro i hi
    rw [hrow i hi]
    rw [List.length_append, hAlen i hi, eye_getD_row hi]
    simp
  · intro i hi j hj
    rw [hrow i hi]
    exact getD_append_left (by rw [hAlen i hi]; exact hj) 0
  · intro i hi j hj
    rw [hrow i hi]
    have h1 : n0 + j = (A_eq.getD i []).length + j := by rw [hAlen i hi]
    rw [h1, getD_append_right_add]
    exact eye_getD hi hj

/-- Witness for C3 at a concrete 1-by-2 system. -/
theorem prepara_input_augments_witness :
    (prepara_input [[1, 2]] [5] [((0 : ℚ), (none : Option ℚ))]).1.length = 1 ∧
    (∀ i, i < 1 →
      ((prepara_input [[1, 2]] [5] [((0 : ℚ), (none : Option ℚ))]).1.getD i []).length = 2 + 1) ∧
    (∀ i, i < 1 → ∀ j, j < 2 →
      ((prepara_input [[1, 2]] [5] [((0 : ℚ), (none : Option ℚ))]).1.getD i []).getD j 0 =
        (([[1, 2]] : List (List ℚ)).getD i []).getD j 0) ∧
    (∀ i, i < 1 → ∀ j, j < 1 →
      ((prepara_input [[1, 2]] [5] [((0 : ℚ), (none : Option ℚ))]).1.getD i []).getD (2 + j) 0 =
        if i = j then (1 : ℚ) else 0) ∧
    (prepara_input [[1, 2]] [5] [((0 : ℚ), (none : Option ℚ))]).2.1 =
      [5] ++ List.replicate 1 0 ∧
    (prepara_input [[1, 2]] [5] [((0 : ℚ), (none : Option ℚ))]).2.2 =
      [((0 : ℚ), (none : Option ℚ))] ++
        List.replicate 1 ((0 : ℚ), (none : Option ℚ)) :=
  prepara_input_augments [[1, 2]] [5] [((0 : ℚ), (none : Option ℚ))] 2
    (by decide)

theorem getD_append_singleton {α : Type} (l : List α) (x : α) (d : α) :
    (l ++ [x]).getD l.length d = x := by
  have h := getD_append_right_add l [x] 0 d
  rw [Nat.add_zero] at h
  exact h

/-- C10: prepara_input never mutates the caller's three argument
objects: at the heap level every cell of the caller frame is unchanged,
the three returned references are fresh (beyond the old store), and the
objects they denote are exactly the pure prepara_input results. -/
theorem prepara_input_heap_frame (st : Store) (aRef cRef bRef : ℕ) :
    (∀ i, i < st.mats.length →
      ((prepara_input_heap st aRef cRef bRef).1.mats).getD i [] =
        st.mats.getD i []) ∧
    (∀ i, i < st.vecs.length →
      ((prepara_input_heap st aRef cRef bRef).1.vecs).getD i [] =
        st.vecs.getD i []) ∧
    (∀ i, i < st.bnds.length →
      ((prepara_input_heap st aRef cRef bRef).1.bnds).getD i [] =
        st.bnds.getD i []) ∧
    st.mats.length ≤ (prepara_input_heap st aRef cRef bRef).2.1 ∧
    st.vecs.length ≤ (prepara_input_heap st aRef cRef bRef).2.2.1 ∧
    st.bnds.length ≤ (prepara_input_heap st aRef cRef bRef).2.2.2 ∧
    ((prepara_input_heap st aRef cRef bRef).1.mats).getD
        (prepara_input_heap st aRef cRef bRef).2.1 [] =
      (prepara_input (st.mats.getD aRef []) (st.vecs.getD cRef [])
        (st.bnds.getD bRef [])).1 ∧
    ((prepara_input_heap st aRef cRef bRef).1.vecs).getD
        (prepara_input_heap st aRef cRef bRef).2.2.1 [] =
      (prepara_input (st.mats.getD aRef []) (st.vecs.getD cRef [])
        (st.bnds.getD bRef [])).2.1 ∧
    ((prepara_input_heap st aRef cRef bRef).1.bnds).getD
        (prepara_input_heap st aRef cRef bRef).2.2.2 [] =
      (prepara_input (st.mats.getD aRef []) (st.vecs.getD cRef [])
        (st.bnds.getD bRef [])).2.2 := by
  refine ⟨?_, ?_, ?_, le_refl _, le_refl _, le_refl _, ?_, ?_, ?_⟩
  · intro i hi
    exact getD_append_left hi []
  · intro i hi
    exact getD_append_left hi []
  · intro i hi
    exact getD_append_left hi []
  · exact getD_append_singleton st.mats _ []
  · exact getD_append_singleton st.vecs _ []
  · exact getD_append_singleton st.bnds _ []

/-- Witness for C10 at a concrete one-cell store. -/
theorem prepara_input_heap_frame_witness :
    ((prepara_input_heap
        { mats := [[[1]]], vecs := [[2]], bnds := [[((0 : ℚ), (none : Option ℚ))]] }
        0 0 0).1.mats).getD 0 [] =
      ([[[1]]] : List (List (List ℚ))).getD 0 [] :=
  (prepara_input_heap_frame
    { mats := [[[1]]], vecs := [[2]], bnds := [[((0 : ℚ), (none : Option ℚ))]] }
    0 0 0).1 0 (by decide)

theorem step_raised_elim {c b_eq : List ℚ} {A : List (List ℚ)}
    {s : SimplexState} {i : ℕ} (h : step c A b_eq s = StepResult.raised i) :
    matInv (basisMatrix A s) = none := by
  cases hinv : matInv (basisMatrix A s) with
  | none => rfl
  | some B_inv =>
    cases hx : (basicSolution B_inv b_eq).any (fun x => decide (x < 0)) with
    | true => rw [step_infeasible_eq hinv hx] at h; cases h
    | false =>
      cases hrc : (reducedCosts c A B_inv s).all (fun r => decide (0 ≤ r)) with
      | true => rw [step_optimal_eq hinv hx hrc] at h; cases h
      | false =>
        cases hd : (directionOf A B_inv (entering_var_of c A B_inv s)).all
            (fun t => decide (t ≤ 0)) with
        | true => rw [step_unbounded_eq hinv hx hrc hd] at h; cases h
        | false => rw [step_pivot_eq hinv hx hrc hd] at h; cases h

theorem stepS_ne_raised {tol : ℚ} (ht : 0 ≤ tol) (c b_eq : List ℚ)
    (A : List (List ℚ)) (s : SimplexState) (i : ℕ) :
    stepS tol c A b_eq s ≠ StepResult.raised i := by
  intro h
  unfold stepS at h
  cases hs : isSingular tol (basisMatrix A s) with
  | true => rw [hs] at h; simp at h
  | false =>
    rw [hs] at h
    simp only [Bool.false_eq_true, if_false] at h
    have hdet : det (basisMatrix A s) = 0 := matInv_eq_none_iff.mp (step_raised_elim h)
    have : |det (basisMatrix A s)| ≤ tol := by rw [hdet]; simpa using ht
    simp [isSingular, this] at hs

/-- C1 (second solver variant, modelled from the spec): whenever the
current basis sub-matrix is singular the singularity predicate trips
(for any nonnegative tolerance), so the loop body returns the
SingularBasis outcome with the incremented iteration index; in
particular a run whose initial basis sub-matrix is singular returns
SingularBasis at iteration 1; and no run of this variant ever ends in a
propagated numerical exception. -/
theorem singular_basis_clean (tol : ℚ) :
    (∀ (c b_eq : List ℚ) (A : List (List ℚ)) (s : SimplexState), 0 ≤ tol →
      det (basisMatrix A s) = 0 →
      stepS tol c A b_eq s = StepResult.done (mkSingular (s.iteration + 1))) ∧
    (∀ (k : ℕ) (c b_eq : List ℚ) (A : List (List ℚ)), 0 ≤ tol →
      det (basisMatrix A (initState c b_eq)) = 0 →
      solverS tol (k + 1) c A b_eq = SolveRes.ok (mkSingular 1)) ∧
    (∀ (c b_eq : List ℚ) (A : List (List ℚ)) (k : ℕ) (s : SimplexState),
      0 ≤ tol → (solverLoopS tol c A b_eq k s).isExn = false) := by
  have hstep : ∀ (c b_eq : List ℚ) (A : List (List ℚ)) (s : SimplexState),
      0 ≤ tol → det (basisMatrix A s) = 0 →
      stepS tol c A b_eq s = StepResult.done (mkSingular (s.iteration + 1)) := by
    intro c b_eq A s ht hdet
    have habs : |det (basisMatrix A s)| ≤ tol := by rw [hdet]; simpa using ht
    unfold stepS
    simp [isSingular, habs]
  refine ⟨hstep, ?_, ?_⟩
  · intro k c b_eq A ht hdet
    unfold solverS solverLoopS
    rw [hstep c b_eq A (initState c b_eq) ht hdet]
    rfl
  · intro c b_eq A k
    induction k with
    | zero => intro s _; rfl
    | succ k ih =>
      intro s ht
      cases hs : stepS tol c A b_eq s with
      | done r => simp [solverLoopS, hs, SolveRes.isExn]
      | raised i => exact absurd hs (stepS_ne_raised ht c b_eq A s i)
      | next s' =>
        simp only [solverLoopS, hs]
        exact ih s' ht

/-- Witness for C1: a constraint matrix with two identical rows makes
the initial basis sub-matrix singular; the modelled variant returns the
SingularBasis outcome at iteration 1. -/
theorem singular_basis_clean_witness :
    solverS 0 3 [0, 0] [[1, 2], [1, 2]] [1, 1] = SolveRes.ok (mkSingular 1) :=
  (singular_basis_clean 0).2.1 2 [0, 0] [1, 1] [[1, 2], [1, 2]]
    (le_refl 0) (by with_unfolding_all decide)

/-- C6: whenever inversion succeeds and x_B = B_inv · b has a negative
component, the loop body returns the Infeasible dict with the current
iteration count; and on the spec's concrete system, the matrix
[[1,2,-3],[-2,0,3],[1,1,0]] augmented with 3 slack columns and
b = [-5,1,1], the solver returns status Infeasible at iteration 1. -/
theorem infeasible_negative_basic :
    (∀ (c b_eq : List ℚ) (A B_inv : List (List ℚ)) (s : SimplexState),
      matInv (basisMatrix A s) = some B_inv →
      (basicSolution B_inv b_eq).any (fun x => decide (x < 0)) = true →
      step c A b_eq s = StepResult.done (mkInfeasible (s.iteration + 1))) ∧
    solver 10
      ((prepara_input [[1, 2, -3], [-2, 0, 3], [1, 1, 0]] [-2, -3, -4]
        [((0 : ℚ), (none : Option ℚ)), (0, none), (0, none)]).2.1)
      ((prepara_input [[1, 2, -3], [-2, 0, 3], [1, 1, 0]] [-2, -3, -4]
        [((0 : ℚ), (none : Option ℚ)), (0, none), (0, none)]).1)
      [-5, 1, 1] = SolveRes.ok (mkInfeasible 1) := by
  constructor
  · intro c b_eq A B_inv s hinv hx
    exact step_infeasible_eq hinv hx
  · with_unfolding_all decide

/-- Witness for C6 on a concrete identity-basis system with a negative
right-hand side component. -/
theorem infeasible_negative_basic_witness :
    step [0, 0] [[1, 0], [0, 1]] [-1, 1] (initState [0, 0] [-1, 1]) =
      StepResult.done (mkInfeasible 1) :=
  infeasible_negative_basic.1 [0, 0] [-1, 1] [[1, 0], [0, 1]]
    [[1, 0], [0, 1]] (initState [0, 0] [-1, 1]) (by with_unfolding_all decide)
    (by with_unfolding_all decide)

/-- C7 counterexample: on a concrete unbounded problem the solver's
returned dict has status Unbounded and the iteration count, but its
message is none — the source dict carries only the status and iteration
keys, so no message is reported. -/
theorem unbounded_no_message :
    solver 5 [-1, 0] [[-1, 1]] [1] = SolveRes.ok (mkUnbounded 1) ∧
    (mkUnbounded 1).message = none := by
  constructor
  · with_unfolding_all decide
  · rfl

/-- C7 (amended): in every iteration where inversion succeeded, x_B is
nonnegative, some reduced cost is negative and every component of the
direction vector is ≤ 0, the loop body returns the Unbounded dict with
the iteration count; the returned record contains no message. -/
theorem unbounded_return (c b_eq : List ℚ) (A B_inv : List (List ℚ))
    (s : SimplexState)
    (hinv : matInv (basisMatrix A s) = some B_inv)
    (hx : (basicSolution B_inv b_eq).any (fun x => decide (x < 0)) = false)
    (hrc : (reducedCosts c A B_inv s).all (fun r => decide (0 ≤ r)) = false)
    (hd : (directionOf A B_inv (entering_var_of c A B_inv s)).all
      (fun t => decide (t ≤ 0)) = true) :
    step c A b_eq s = StepResult.done (mkUnbounded (s.iteration + 1)) ∧
    (mkUnbounded (s.iteration + 1)).status = "Unbounded" ∧
    (mkUnbounded (s.iteration + 1)).message = none :=
  ⟨step_unbounded_eq hinv hx hrc hd, rfl, rfl⟩

/-- Witness for C7's amended statement on a concrete unbounded run. -/
theorem unbounded_return_witness :
    step [-1, 0] [[-1, 1]] [1] (initState [-1, 0] [1]) =
      StepResult.done (mkUnbounded 1) :=
  (unbounded_return [-1, 0] [1] [[-1, 1]] [[1]] (initState [-1, 0] [1])
    (by with_unfolding_all decide) (by with_unfolding_all decide)
    (by with_unfolding_all decide) (by with_unfolding_all decide)).1

/-- C2: in every iteration in which inversion succeeded, x_B has no
negative component and all reduced costs of the nonbasic variables are
nonnegative, the loop body returns the Optimal dict carrying the
iteration count, the objective value c . x, and a solution vector x of
length n whose entries at the basic indices equal x_B and which is 0 at
every index outside the basis. -/
theorem optimality_return (c b_eq : List ℚ) (A B_inv : List (List ℚ))
    (s : SimplexState)
    (hinv : matInv (basisMatrix A s) = some B_inv)
    (hx : (basicSolution B_inv b_eq).any (fun x => decide (x < 0)) = false)
    (hrc : (reducedCosts c A B_inv s).all (fun r => decide (0 ≤ r)) = true)
    (hnd : s.B_indices.Nodup)
    (hlt : ∀ j ∈ s.B_indices, j < c.length) :
    step c A b_eq s = StepResult.done
      (mkOptimal (assembleSolution c.length s.B_indices (basicSolution B_inv b_eq))
        (dot c (assembleSolution c.length s.B_indices (basicSolution B_inv b_eq)))
        (s.iteration + 1)) ∧
    (assembleSolution c.length s.B_indices (basicSolution B_inv b_eq)).length =
      c.length ∧
    (∀ k, k < s.B_indices.length → k < (basicSolution B_inv b_eq).length →
      (assembleSolution c.length s.B_indices (basicSolution B_inv b_eq)).getD
          (s.B_indices.getD k 0) 0 = (basicSolution B_inv b_eq).getD k 0) ∧
    (∀ j, j ∉ s.B_indices →
      (assembleSolution c.length s.B_indices (basicSolution B_inv b_eq)).getD
          j 0 = 0) :=
  ⟨step_optimal_eq hinv hx hrc,
   assembleSolution_length _ _ _,
   fun k hk hkv => assembleSolution_getD_at _ _ _ k hnd hk hkv hlt,
   fun _ hj => assembleSolution_getD_not_mem _ _ _ hj⟩

/-- Witness for C2: a concrete immediately-optimal system. -/
theorem optimality_return_witness :
    step [1, 0] [[2, 1]] [3] (initState [1, 0] [3]) =
      StepResult.done (mkOptimal [0, 3] 0 1) := by
  have h := (optimality_return [1, 0] [3] [[2, 1]] [[1]] (initState [1, 0] [3])
    (by with_unfolding_all decide) (by with_unfolding_all decide)
    (by with_unfolding_all decide) (by decide) (by decide)).1
  exact h.trans (by with_unfolding_all decide)

/-- C5: in every iteration that is neither optimal nor infeasible (and
where inversion succeeded), the chosen entering variable is the nonbasic
index whose reduced cost is the minimum, that minimum is negative, and
when several entries of the reduced-cost list attain it, the first
occurrence in the order of the nonbasic list is chosen. -/
theorem entering_selection (c b_eq : List ℚ) (A B_inv : List (List ℚ))
    (s : SimplexState)
    (_hinv : matInv (basisMatrix A s) = some B_inv)
    (_hx : (basicSolution B_inv b_eq).any (fun x => decide (x < 0)) = false)
    (hrc : (reducedCosts c A B_inv s).all (fun r => decide (0 ≤ r)) = false) :
    entering_index_of c A B_inv s < (reducedCosts c A B_inv s).length ∧
    (reducedCosts c A B_inv s).getD (entering_index_of c A B_inv s) 0 < 0 ∧
    (∀ i, i < (reducedCosts c A B_inv s).length →
      (reducedCosts c A B_inv s).getD (entering_index_of c A B_inv s) 0 ≤
        (reducedCosts c A B_inv s).getD i 0) ∧
    (∀ i, i < entering_index_of c A B_inv s →
      (reducedCosts c A B_inv s).getD (entering_index_of c A B_inv s) 0 <
        (reducedCosts c A B_inv s).getD i 0) ∧
    entering_var_of c A B_inv s =
      s.N_indices.getD (entering_index_of c A B_inv s) 0 := by
  have hne : reducedCosts c A B_inv s ≠ [] := by
    intro h0
    rw [h0] at hrc
    simp at hrc
  have h1 : entering_index_of c A B_inv s < (reducedCosts c A B_inv s).length :=
    argmin_lt_length hne
  obtain ⟨i0, hi0, hp0⟩ := exists_getD_of_all_false (0 : ℚ) hrc
  have hneg : (reducedCosts c A B_inv s).getD i0 0 < 0 :=
    lt_of_not_le (of_decide_eq_false hp0)
  refine ⟨h1, ?_, ?_, ?_, rfl⟩
  · exact lt_of_le_of_lt (argmin_le_getD _ 0 i0 hi0) hneg
  · exact argmin_le_getD _ 0
  · exact argmin_first_getD _ 0

/-- Witness for C5 on a concrete system with one negative reduced cost. -/
theorem entering_selection_witness :
    entering_var_of [-1, 0] [[-1, 1]] [[1]] (initState [-1, 0] [1]) = 0 ∧
    (reducedCosts [-1, 0] [[-1, 1]] [[1]] (initState [-1, 0] [1])).getD
      (entering_index_of [-1, 0] [[-1, 1]] [[1]] (initState [-1, 0] [1])) 0 < 0 := by
  have h := entering_selection [-1, 0] [1] [[-1, 1]] [[1]] (initState [-1, 0] [1])
    (by with_unfolding_all decide) (by with_unfolding_all decide)
    (by with_unfolding_all decide)
  exact ⟨h.2.2.2.2.trans (by with_unfolding_all decide), h.2.1⟩

theorem ratiosOf_getD {x_B direction : List ℚ} {i : ℕ} (h : i < direction.length) :
    (ratiosOf x_B direction).getD i ⊤ =
      if 0 < direction.getD i 0 then
        ((x_B.getD i 0 / direction.getD i 0 : ℚ) : WithTop ℚ)
      else ⊤ :=
  getD_range_map _ h ⊤

theorem length_ratiosOf (x_B direction : List ℚ) :
    (ratiosOf x_B direction).length = direction.length := by
  simp [ratiosOf]

/-- C4: in every iteration that reaches the minimum-ratio test, the
leaving position L satisfies d_L > 0, the ratio x_B[L]/d_L is minimal
among all positions with d_i > 0 (positions with d_i ≤ 0 counting as
+inf), every earlier position either has d_i ≤ 0 or a strictly larger
ratio (so ties go to the first occurrence in position order), and the
loop body pivots with this L. -/
theorem leaving_selection (c b_eq : List ℚ) (A B_inv : List (List ℚ))
    (s : SimplexState)
    (hinv : matInv (basisMatrix A s) = some B_inv)
    (hx : (basicSolution B_inv b_eq).any (fun x => decide (x < 0)) = false)
    (hrc : (reducedCosts c A B_inv s).all (fun r => decide (0 ≤ r)) = false)
    (hd : (directionOf A B_inv (entering_var_of c A B_inv s)).all
      (fun t => decide (t ≤ 0)) = false) :
    leaving_index_of c A b_eq B_inv s <
      (directionOf A B_inv (entering_var_of c A B_inv s)).length ∧
    0 < (directionOf A B_inv (entering_var_of c A B_inv s)).getD
      (leaving_index_of c A b_eq B_inv s) 0 ∧
    (∀ i, i < (directionOf A B_inv (entering_var_of c A B_inv s)).length →
      0 < (directionOf A B_inv (entering_var_of c A B_inv s)).getD i 0 →
      (basicSolution B_inv b_eq).getD (leaving_index_of c A b_eq B_inv s) 0 /
          (directionOf A B_inv (entering_var_of c A B_inv s)).getD
            (leaving_index_of c A b_eq B_inv s) 0 ≤
        (basicSolution B_inv b_eq).getD i 0 /
          (directionOf A B_inv (entering_var_of c A B_inv s)).getD i 0) ∧
    (∀ i, i < leaving_index_of c A b_eq B_inv s →
      (directionOf A B_inv (entering_var_of c A B_inv s)).getD i 0 ≤ 0 ∨
      (basicSolution B_inv b_eq).getD (leaving_index_of c A b_eq B_inv s) 0 /
          (directionOf A B_inv (entering_var_of c A B_inv s)).getD
            (leaving_index_of c A b_eq B_inv s) 0 <
        (basicSolution B_inv b_eq).getD i 0 /
          (directionOf A B_inv (entering_var_of c A B_inv s)).getD i 0) ∧
    step c A b_eq s = StepResult.next (pivot c A b_eq B_inv s) ∧
    (pivot c A b_eq B_inv s).B_indices =
      s.B_indices.set (leaving_index_of c A b_eq B_inv s)
        (entering_var_of c A B_inv s) := by
  have hLdef : leaving_index_of c A b_eq B_inv s =
      argmin (ratiosOf (basicSolution B_inv b_eq)
        (directionOf A B_inv (entering_var_of c A B_inv s))) := rfl
  obtain ⟨i0, hi0, hp0⟩ := exists_getD_of_all_false (0 : ℚ) hd
  have hd0 : 0 < (directionOf A B_inv (entering_var_of c A B_inv s)).getD i0 0 :=
    lt_of_not_le (of_decide_eq_false hp0)
  have hrne : ratiosOf (basicSolution B_inv b_eq)
      (directionOf A B_inv (entering_var_of c A B_inv s)) ≠ [] := by
    intro h0
    have := length_ratiosOf (basicSolution B_inv b_eq)
      (directionOf A B_inv (entering_var_of c A B_inv s))
    rw [h0] at this
    simp at this
    omega
  have hL : leaving_index_of c A b_eq B_inv s <
      (directionOf A B_inv (entering_var_of c A B_inv s)).length := by
    rw [hLdef, ← length_ratiosOf (basicSolution B_inv b_eq)]
    exact argmin_lt_length hrne
  have hri0 : (ratiosOf (basicSolution B_inv b_eq)
      (directionOf A B_inv (entering_var_of c A B_inv s))).getD i0 ⊤ =
      (((basicSolution B_inv b_eq).getD i0 0 /
        (directionOf A B_inv (entering_var_of c A B_inv s)).getD i0 0 : ℚ) :
          WithTop ℚ) := by
    rw [ratiosOf_getD hi0, if_pos hd0]
  have hle0 : (ratiosOf (basicSolution B_inv b_eq)
      (directionOf A B_inv (entering_var_of c A B_inv s))).getD
        (leaving_index_of c A b_eq B_inv s) ⊤ ≤
      (ratiosOf (basicSolution B_inv b_eq)
        (directionOf A B_inv (entering_var_of c A B_inv s))).getD i0 ⊤ := by
    rw [hLdef]
    exact argmin_le_getD _ ⊤ i0
      (by rw [length_ratiosOf]; exact hi0)
  have hLfin : (ratiosOf (basicSolution B_inv b_eq)
      (directionOf A B_inv (entering_var_of c A B_inv s))).getD
        (leaving_index_of c A b_eq B_inv s) ⊤ < ⊤ := by
    rw [hri0] at hle0
    exact lt_of_le_of_lt hle0 (WithTop.coe_lt_top _)
  have hdL : 0 < (directionOf A B_inv (entering_var_of c A B_inv s)).getD
      (leaving_index_of c A b_eq B_inv s) 0 := by
    by_contra hneg
    rw [ratiosOf_getD hL, if_neg hneg] at hLfin
    exact lt_irrefl ⊤ hLfin
  have hrL : (ratiosOf (basicSolution B_inv b_eq)
      (directionOf A B_inv (entering_var_of c A B_inv s))).getD
        (leaving_index_of c A b_eq B_inv s) ⊤ =
      (((basicSolution B_inv b_eq).getD (leaving_index_of c A b_eq B_inv s) 0 /
        (directionOf A B_inv (entering_var_of c A B_inv s)).getD
          (leaving_index_of c A b_eq B_inv s) 0 : ℚ) : WithTop ℚ) := by
    rw [ratiosOf_getD hL, if_pos hdL]
  refine ⟨hL, hdL, ?_, ?_, step_pivot_eq hinv hx hrc hd, rfl⟩
  · intro i hi hdi
    have h1 : (ratiosOf (basicSolution B_inv b_eq)
        (directionOf A B_inv (entering_var_of c A B_inv s))).getD
          (leaving_index_of c A b_eq B_inv s) ⊤ ≤
        (ratiosOf (basicSolution B_inv b_eq)
          (directionOf A B_inv (entering_var_of c A B_inv s))).getD i ⊤ := by
      rw [hLdef]
      exact argmin_le_getD _ ⊤ i (by rw [length_ratiosOf]; exact hi)
    rw [hrL, ratiosOf_getD hi, if_pos hdi] at h1
    exact_mod_cast h1
  · intro i hi
    by_cases hdi : 0 < (directionOf A B_inv (entering_var_of c A B_inv s)).getD i 0
    · right
      have h1 : (ratiosOf (basicSolution B_inv b_eq)
          (directionOf A B_inv (entering_var_of c A B_inv s))).getD
            (leaving_index_of c A b_eq B_inv s) ⊤ <
          (ratiosOf (basicSolution B_inv b_eq)
            (directionOf A B_inv (entering_var_of c A B_inv s))).getD i ⊤ := by
        rw [hLdef]
        exact argmin_first_getD _ ⊤ i (by rw [← hLdef]; exact hi)
      have hilen : i < (directionOf A B_inv (entering_var_of c A B_inv s)).length :=
        lt_trans hi hL
      rw [hrL, ratiosOf_getD hilen, if_pos hdi] at h1
      exact_mod_cast h1
    · exact Or.inl (le_of_not_lt hdi)

/-- Witness for C4 on a concrete system that performs one pivot. -/
theorem leaving_selection_witness :
    step [-1, 0] [[1, 1]] [2] (initState [-1, 0] [2]) =
      StepResult.next { B_indices := [0], N_indices := [1], iteration := 1 } := by
  have h := (leaving_selection [-1, 0] [2] [[1, 1]] [[1]] (initState [-1, 0] [2])
    (by with_unfolding_all decide) (by with_unfolding_all decide)
    (by with_unfolding_all decide) (by with_unfolding_all decide)).2.2.2.2.1
  exact h.trans (by with_unfolding_all decide)

theorem length_reducedCosts_le (c : List ℚ) (A B_inv : List (List ℚ))
    (s : SimplexState) :
    (reducedCosts c A B_inv s).length ≤ s.N_indices.length := by
  unfold reducedCosts
  rw [List.length_zipWith]
  exact le_trans (min_le_left _ _) (by simp [getAt])

theorem length_directionOf (A B_inv : List (List ℚ)) (j : ℕ) :
    (directionOf A B_inv j).length = B_inv.length := by
  simp [directionOf, matVec]

theorem length_basisMatrix (A : List (List ℚ)) (s : SimplexState) :
    (basisMatrix A s).length = A.length := by
  simp [basisMatrix, colsOf]

/-- The loop invariant of the basis bookkeeping: B_indices has exactly m
entries and B_indices ++ N_indices is a permutation of 0..n-1. -/
def BasisInvariant (n m : ℕ) (s : SimplexState) : Prop :=
  s.B_indices.length = m ∧ (s.B_indices ++ s.N_indices).Perm (List.range n)

/-- C8: with m = len(b) ≤ n = len(c), the initial basis and nonbasic
lists have exactly m and n-m elements and together partition 0..n-1;
every pivot step preserves this invariant, and it does so by writing
the entering index at the leaving position of B_indices and the leaving
index at the entering position of N_indices; and the invariant means
exactly that every k < n is in one of the two lists and in no more
than one. -/
theorem basis_partition :
    (∀ (c b_eq : List ℚ), b_eq.length ≤ c.length →
      BasisInvariant c.length b_eq.length (initState c b_eq)) ∧
    (∀ (c b_eq : List ℚ) (A : List (List ℚ)) (s s' : SimplexState),
      A.length = b_eq.length →
      BasisInvariant c.length b_eq.length s →
      step c A b_eq s = StepResult.next s' →
      BasisInvariant c.length b_eq.length s' ∧
      ∃ r t, r < s.B_indices.length ∧ t < s.N_indices.length ∧
        s'.B_indices = s.B_indices.set r (s.N_indices.getD t 0) ∧
        s'.N_indices = s.N_indices.set t (s.B_indices.getD r 0)) ∧
    (∀ (n m : ℕ) (s : SimplexState), BasisInvariant n m s →
      ∀ k, k < n → (k ∈ s.B_indices ∨ k ∈ s.N_indices) ∧
        ¬(k ∈ s.B_indices ∧ k ∈ s.N_indices)) := by
  refine ⟨?_, ?_, ?_⟩
  · intro c b_eq hm
    constructor
    · simp only [initState, List.length_range']
      omega
    · simp only [initState]
      obtain ⟨a, ha⟩ : ∃ a, c.length = a + b_eq.length := ⟨c.length - b_eq.length, by omega⟩
      rw [ha]
      rw [(show a + b_eq.length - b_eq.length = a by omega)]
      rw [(show a + b_eq.length - a = b_eq.length by omega)]
      rw [List.range'_eq_map_range, List.range_add]
      exact List.perm_append_comm
  · intro c b_eq A s s' hA hInv hstep
    obtain ⟨B_inv, hinv, hx, hrc, hd, hs'⟩ := step_next_elim hstep
    have hrcne : reducedCosts c A B_inv s ≠ [] := by
      intro h0
      rw [h0] at hrc
      simp at hrc
    have ht : entering_index_of c A B_inv s < s.N_indices.length :=
      lt_of_lt_of_le (argmin_lt_length hrcne) (length_reducedCosts_le c A B_inv s)
    have hdne : ratiosOf (basicSolution B_inv b_eq)
        (directionOf A B_inv (entering_var_of c A B_inv s)) ≠ [] := by
      intro h0
      have h1 := length_ratiosOf (basicSolution B_inv b_eq)
        (directionOf A B_inv (entering_var_of c A B_inv s))
      rw [h0] at h1
      cases hdd : directionOf A B_inv (entering_var_of c A B_inv s) with
      | nil => rw [hdd] at hd; simp at hd
      | cons z zs => rw [hdd] at h1; simp at h1
    have hr : leaving_index_of c A b_eq B_inv s < s.B_indices.length := by
      have h1 : leaving_index_of c A b_eq B_inv s <
          (ratiosOf (basicSolution B_inv b_eq)
            (directionOf A B_inv (entering_var_of c A B_inv s))).length :=
        argmin_lt_length hdne
      rw [length_ratiosOf, length_directionOf,
        (matInv_length hinv).trans (length_basisMatrix A s), hA, ← hInv.1] at h1
      exact h1
    subst hs'
    refine ⟨⟨?_, ?_⟩, ?_⟩
    · simp only [pivot, List.length_set]
      exact hInv.1
    · have hswap := swap_pivot_perm s.B_indices s.N_indices
        (leaving_index_of c A b_eq B_inv s) (entering_index_of c A B_inv s) hr ht
      exact hswap.trans hInv.2
    · exact ⟨leaving_index_of c A b_eq B_inv s, entering_index_of c A B_inv s,
        hr, ht, rfl, rfl⟩
  · intro n m s hInv k hk
    have hmem : k ∈ s.B_indices ++ s.N_indices :=
      hInv.2.mem_iff.mpr (by simpa using hk)
    have hnd : (s.B_indices ++ s.N_indices).Nodup :=
      hInv.2.nodup_iff.mpr (List.nodup_range n)
    obtain ⟨_, _, hdisj⟩ := List.nodup_append.mp hnd
    constructor
    · exact List.mem_append.mp hmem
    · rintro ⟨hB, hN⟩
      exact hdisj hB hN

/-- Witness for C8: the invariant holds for a concrete initial state and
is carried across the concrete pivot that its step performs. -/
theorem basis_partition_witness :
    BasisInvariant 2 1 (initState [-1, 0] [2]) ∧
    BasisInvariant 2 1 { B_indices := [0], N_indices := [1], iteration := 1 } := by
  have h1 := basis_partition.1 [-1, 0] [2] (by decide)
  have h2 := (basis_partition.2.1 [-1, 0] [2] [[1, 1]] (initState [-1, 0] [2])
    { B_indices := [0], N_indices := [1], iteration := 1 } rfl h1
    (by with_unfolding_all decide)).1
  exact ⟨h1, h2⟩

theorem solverLoop_optimal_objective (c : List ℚ) (A : List (List ℚ))
    (b_eq : List ℚ) :
    ∀ (k : ℕ) (s : SimplexState) (r : Result),
      solverLoop c A b_eq k s = SolveRes.ok r → r.status = "Optimal" →
      ∃ x, r.solution = some x ∧ r.objective_value = some (dot c x) := by
  intro k
  induction k with
  | zero =>
    intro s r h
    simp [solverLoop] at h
  | succ k ih =>
    intro s r h hst
    cases hstep : step c A b_eq s with
    | done r' =>
      simp only [solverLoop, hstep] at h
      injection h with h'
      subst h'
      rcases step_done_elim hstep with h1 | ⟨x, h1⟩ | h1
      · rw [h1] at hst
        exact absurd hst (by simp [mkInfeasible])
      · rw [h1]
        exact ⟨x, rfl, rfl⟩
      · rw [h1] at hst
        exact absurd hst (by simp [mkUnbounded])
    | raised i => simp [solverLoop, hstep] at h
    | next s' =>
      simp only [solverLoop, hstep] at h
      exact ih s' r h hst

/-- C9: whenever a solver run returns a dict with status Optimal, its
objective_value is exactly the dot product of the cost vector with the
returned solution vector, hence within any floating tolerance such as
1e-6. -/
theorem optimal_objective_roundtrip (k : ℕ) (c : List ℚ) (A : List (List ℚ))
    (b_eq : List ℚ) (r : Result) (h : solver k c A b_eq = SolveRes.ok r)
    (hst : r.status = "Optimal") :
    ∃ x v, r.solution = some x ∧ r.objective_value = some v ∧
      |v - dot c x| ≤ 1 / 1000000 := by
  obtain ⟨x, hx, hv⟩ :=
    solverLoop_optimal_objective c A b_eq k (initState c b_eq) r h hst
  exact ⟨x, dot c x, hx, hv, by simp⟩

/-- Witness for C9 on a concrete optimal run. -/
theorem optimal_objective_roundtrip_witness :
    ∃ x v, (mkOptimal [0, 3] 0 1).solution = some x ∧
      (mkOptimal [0, 3] 0 1).objective_value = some v ∧
      |v - dot [1, 0] x| ≤ 1 / 1000000 :=
  optimal_objective_roundtrip 2 [1, 0] [[2, 1]] [3] (mkOptimal [0, 3] 0 1)
    (by with_unfolding_all decide) rfl
